import Mathlib

set_option maxRecDepth 8000

/-!
Verification development for the Result-Dashboard repository
(`Result_Downloader.py`, `dashboard_app.py`, `minimal_browser_extractor.py`).

Strings are modelled as `List Char` (`Str`); `s2l` converts a literal.
The page handed to the extraction engine is modelled as the list of tables
the HTML parser produces, a table being its list of `tr` rows and a row the
list of text contents of its `td`/`th` cells.  Regular-expression scans from
the source are embedded as direct character scanners over ASCII text, with
the backtracking of each concrete pattern resolved into its deterministic
equivalent (justified next to each definition).
-/

abbrev Str := List Char

def s2l (s : String) : Str := s.data

/-- Python `\w` over ASCII text: letters, digits, underscore.
`\b` holds between a word char and a non-word char (or the string edge). -/
def isWordChar (c : Char) : Bool := c.isAlpha || c.isDigit || c = '_'

/-- The char before the scan position is a word boundary for a pattern that
starts with a word character: no previous char, or a non-word previous char. -/
def prevBoundary : Option Char → Bool
  | none => true
  | some c => !isWordChar c

/-- The text after a match ends at a word boundary: end of string or a
non-word char next. -/
def nextBoundary : Str → Bool
  | [] => true
  | c :: _ => !isWordChar c

/-- Python whitespace as stripped by `str.strip()` (ASCII). -/
def isPyWs (c : Char) : Bool :=
  c = ' ' || c = '\t' || c = '\n' || c = '\r' || c = '\x0b' || c = '\x0c'

/-- `str.strip()`: drop leading and trailing whitespace. -/
def pyStrip (s : Str) : Str :=
  ((s.dropWhile isPyWs).reverse.dropWhile isPyWs).reverse

/-- `' '.join(...)` over the already-stripped cell texts. -/
def joinSp : List Str → Str
  | [] => []
  | [x] => x
  | x :: xs => x ++ ' ' :: joinSp xs

def upperStr (s : Str) : Str := s.map Char.toUpper

/-- `needle in hay` (substring containment, after uppercasing at call site). -/
def containsSub (needle : Str) : Str → Bool
  | [] => needle.isEmpty
  | c :: rest => needle.isPrefixOf (c :: rest) || containsSub needle rest

/-- `int(...)` on a string of decimal digits. -/
def digitsToNat (s : Str) : Nat :=
  s.foldl (fun a c => a * 10 + (c.toNat - '0'.toNat)) 0

/-! ### `re.search(r'\b([0-9]{1,3}F)\b', row_text, re.IGNORECASE)`

At a candidate position the greedy `[0-9]{1,3}` can only succeed on the whole
digit run starting there (taking fewer digits leaves a digit where `F` is
required), so a match at a position holds iff: word boundary before, a digit
run of length 1..3 follows, then `F`/`f`, then a word boundary.  `re.search`
returns the leftmost such match; group(1) is the digits plus the `F`. -/

def numFMatchAt (prev : Option Char) (s : Str) : Option Str :=
  if prevBoundary prev then
    let ds := s.takeWhile Char.isDigit
    let rest := s.dropWhile Char.isDigit
    if 1 ≤ ds.length ∧ ds.length ≤ 3 then
      match rest with
      | c :: after =>
        if (c = 'F' ∨ c = 'f') ∧ nextBoundary after then some (ds ++ [c]) else none
      | [] => none
    else none
  else none

def findNumF (prev : Option Char) : Str → Option Str
  | [] => none
  | c :: rest =>
    match numFMatchAt prev (c :: rest) with
    | some g => some g
    | none => findNumF (some c) rest

/-! ### `re.search(r'\bF\b', row_text, re.IGNORECASE)` -/

def hasWordF (prev : Option Char) : Str → Bool
  | [] => false
  | c :: rest =>
    (prevBoundary prev && (c = 'F' || c = 'f') && nextBoundary rest) ||
      hasWordF (some c) rest

/-! ### `re.findall(r'\b([0-9]{2,3})\b', row_text)`

A match occurs exactly at maximal digit runs of length 2..3 with non-word
context on both sides.  `findall` resumes after each match; advancing one
character at a time is equivalent, because positions strictly inside a digit
run have no preceding word boundary and so can never start a match. -/

def numsMatchAt (prev : Option Char) (s : Str) : Option Str :=
  if prevBoundary prev then
    let ds := s.takeWhile Char.isDigit
    if (2 ≤ ds.length ∧ ds.length ≤ 3) ∧ nextBoundary (s.dropWhile Char.isDigit) then
      some ds
    else none
  else none

def findNums (prev : Option Char) : Str → List Str
  | [] => []
  | c :: rest =>
    match numsMatchAt prev (c :: rest) with
    | some g => g :: findNums (some c) rest
    | none => findNums (some c) rest

/-! ### `re.search(r'\bKEYWORD\b', row_text, re.IGNORECASE)` for
`FAIL`, `AB`, `ABSENT` (all-letter keywords, given uppercase). -/

def matchCIAt : Str → Str → Option Str
  | [], s => some s
  | _ :: _, [] => none
  | w :: ws, c :: cs => if c.toUpper = w then matchCIAt ws cs else none

def hasKeyword (w : Str) (prev : Option Char) : Str → Bool
  | [] => false
  | c :: rest =>
    (match matchCIAt w (c :: rest) with
     | some after => prevBoundary prev && nextBoundary after
     | none => false) ||
      hasKeyword w (some c) rest

/-! ### Mark extraction for one row (`Result_Downloader.extract_data_from_page`,
the branch ladder on `row_text`): number+F first, then standalone F, then the
last 2–3 digit number in `[10, 100]`, then the fail keywords. -/

def validMarks (t : Str) : List Str :=
  (findNums none t).filter (fun d => decide (10 ≤ digitsToNat d ∧ digitsToNat d ≤ 100))

def markOf (t : Str) : Option Str :=
  match findNumF none t with
  | some g => some (upperStr g)
  | none =>
    if hasWordF none t then some ['F']
    else
      match (validMarks t).getLast? with
      | some v => some v
      | none =>
        if hasKeyword (s2l "FAIL") none t || hasKeyword (s2l "AB") none t ||
            hasKeyword (s2l "ABSENT") none t then some ['F']
        else none

-- sanity checks on small inputs
example : findNumF none (s2l "got 29F here") = some (s2l "29F") := by decide
example : findNumF none (s2l "1234F") = none := by decide
example : hasWordF none (s2l "an F grade") = true := by decide
example : hasWordF none (s2l "FAIL") = false := by decide
example : findNums none (s2l "Max:100 Obtained:76") = [s2l "100", s2l "76"] := by decide
example : findNums none (s2l "1234 56") = [s2l "56"] := by decide
example : markOf (s2l "Max:100 Obtained:76") = some (s2l "76") := by decide
example : markOf (s2l "x 29f y") = some (s2l "29F") := by decide
example : markOf (s2l "ABSENT") = some ['F'] := by decide
example : hasKeyword (s2l "AB") none (s2l "LAB") = false := by decide

/-! ### Subject-code patterns (`subject_patterns` in `extract_data_from_page`)

The three anchored patterns, tried in order against the stripped first cell
(no IGNORECASE flag, so uppercase only):
  1. `^([A-Z]{2,3}-[A-Z]{2,4}-[0-9]{2,3}[A-Z]?)[\s:]`
  2. `^([A-Z]{2,3}-[A-Z]{2,4}-[IVX]+)[\s:]`
  3. `^([A-Z]{2,3}-[0-9]{2,3}[A-Z]?)[\s:]`
A bounded greedy class followed by a character outside that class can only
succeed on the full run (shorter tries leave a same-class character where the
next literal is required), which resolves each pattern deterministically. -/

def isSpaceColon (c : Char) : Bool := isPyWs c || c = ':'

/-- `[0-9]{2,3}[A-Z]?[\s:]` ; returns the part of group(1) it contributes. -/
def matchNumTail (r : Str) : Option Str :=
  let d := r.takeWhile Char.isDigit
  let r5 := r.dropWhile Char.isDigit
  if 2 ≤ d.length ∧ d.length ≤ 3 then
    match r5 with
    | c :: rest =>
      if c.isUpper then
        match rest with
        | c2 :: _ => if isSpaceColon c2 then some (d ++ [c]) else none
        | [] => none
      else if isSpaceColon c then some d else none
    | [] => none
  else none

/-- `[A-Z]{lo,hi}-` ; returns the letters and the remainder after the dash. -/
def matchLettersDash (lo hi : Nat) (s : Str) : Option (Str × Str) :=
  let a := s.takeWhile Char.isUpper
  let r := s.dropWhile Char.isUpper
  if lo ≤ a.length ∧ a.length ≤ hi then
    match r with
    | '-' :: r2 => some (a, r2)
    | _ => none
  else none

def matchP1 (s : Str) : Option Str :=
  match matchLettersDash 2 3 s with
  | some (a, r2) =>
    match matchLettersDash 2 4 r2 with
    | some (b, r4) => (matchNumTail r4).map (fun tl => a ++ '-' :: b ++ '-' :: tl)
    | none => none
  | none => none

def isIVX (c : Char) : Bool := c = 'I' || c = 'V' || c = 'X'

def matchP2 (s : Str) : Option Str :=
  match matchLettersDash 2 3 s with
  | some (a, r2) =>
    match matchLettersDash 2 4 r2 with
    | some (b, r4) =>
      let v := r4.takeWhile isIVX
      let r5 := r4.dropWhile isIVX
      if v.length ≥ 1 then
        match r5 with
        | c :: _ => if isSpaceColon c then some (a ++ '-' :: b ++ '-' :: v) else none
        | [] => none
      else none
    | none => none
  | none => none

def matchP3 (s : Str) : Option Str :=
  match matchLettersDash 2 3 s with
  | some (a, r2) => (matchNumTail r2).map (fun tl => a ++ '-' :: tl)
  | none => none

/-- The pattern loop: first matching pattern wins (the `break`). -/
def findSubjectCode (cell : Str) : Option Str :=
  match matchP1 cell with
  | some g => some g
  | none =>
    match matchP2 cell with
    | some g => some g
    | none => matchP3 cell

/-! ### Page structure and the extraction fold

A page is the list of tables found by the parser; a table its list of `tr`
rows; a row the text of its `td`/`th` cells.  `tableText` models
`table.get_text()` (concatenation of the text content, which lives in the
cells).  `marks_data` is a Python dict: an association list with in-place
update (`insertA`), shared across all qualifying tables. -/

structure HTable where
  rows : List (List Str)
deriving DecidableEq

def concatAll (l : List Str) : Str := l.foldr (fun a b => a ++ b) []

def tableText (t : HTable) : Str := concatAll (t.rows.map concatAll)

def tableKeyword (t : HTable) : Bool :=
  containsSub (s2l "TOTAL") (upperStr (tableText t)) ||
    containsSub (s2l "MARKS") (upperStr (tableText t))

def insertA {β : Type} : List (Str × β) → Str → β → List (Str × β)
  | [], k, v => [(k, v)]
  | (k', v') :: rest, k, v =>
    if k' = k then (k, v) :: rest else (k', v') :: insertA rest k v

def lookupA {β : Type} : List (Str × β) → Str → Option β
  | [], _ => none
  | (k', v') :: rest, k => if k' = k then some v' else lookupA rest k

def rowText (cells : List Str) : Str := joinSp (cells.map pyStrip)

/-- The token one data row contributes: needs ≥ 3 cells, a subject-code match
on the stripped first cell, and a mark extracted from the joined row text. -/
def rowTok (cells : List Str) : Option (Str × Str) :=
  match cells with
  | [] => none
  | c0 :: _ =>
    if 3 ≤ cells.length then
      match findSubjectCode (pyStrip c0) with
      | some code =>
        match markOf (rowText cells) with
        | some tok => some (code, tok)
        | none => none
      | none => none
    else none

def procRow (md : List (Str × Str)) (cells : List Str) : List (Str × Str) :=
  match rowTok cells with
  | some (code, tok) => insertA md code tok
  | none => md

/-- `extract_data_from_page`: for each table whose text mentions TOTAL or
MARKS, fold the data rows (header skipped) into the shared dict. -/
def extractData (page : List HTable) : List (Str × Str) :=
  page.foldl
    (fun md t => if tableKeyword t then (t.rows.drop 1).foldl procRow md else md) []

/-- The ordered list of (code, token) pairs the page's data rows produce. -/
def pageToks : List HTable → List (Str × Str)
  | [] => []
  | t :: rest =>
    (if tableKeyword t then (t.rows.drop 1).filterMap rowTok else []) ++ pageToks rest

def keysOf {β : Type} (m : List (Str × β)) : List Str := m.map Prod.fst

-- sanity checks
example : findSubjectCode (s2l "CS-CS-101 MATHS") = some (s2l "CS-CS-101") := by decide
example : findSubjectCode (s2l "CS-CS-101") = none := by decide
example : findSubjectCode (s2l "AB-MA-IV: X") = some (s2l "AB-MA-IV") := by decide
example : findSubjectCode (s2l "BC-205A data") = some (s2l "BC-205A") := by decide
example : findSubjectCode (s2l "lower-12 x") = none := by decide
example :
    extractData [⟨[[s2l "SUBJECT", s2l "MARKS", s2l "TOTAL"],
                   [s2l "CS-CS-101 MATH", s2l "MATH", s2l "85"]]⟩] =
      [(s2l "CS-CS-101", s2l "85")] := by decide

/-! ### Dict semantics: the final mapping is the last write per key -/

/-- Value of the last pair with the given key in an ordered write list. -/
def lastVal {β : Type} : List (Str × β) → Str → Option β
  | [], _ => none
  | (k', v) :: rest, k =>
    match lastVal rest k with
    | some w => some w
    | none => if k' = k then some v else none

theorem insertA_lookup {β : Type} (m : List (Str × β)) (k : Str) (v : β) (q : Str) :
    lookupA (insertA m k v) q = if k = q then some v else lookupA m q := by
  induction m with
  | nil => rfl
  | cons hd rest ih =>
    obtain ⟨k0, v0⟩ := hd
    by_cases h0 : k0 = k
    · subst h0
      simp only [insertA, if_pos rfl, lookupA]
      by_cases hq : k0 = q
      · simp [hq]
      · simp [hq, lookupA]
    · simp only [insertA, if_neg h0, lookupA]
      by_cases hq : k0 = q
      · subst hq
        have : ¬k = k0 := fun h => h0 h.symm
        simp [this]
      · simp [hq, ih]

theorem foldl_insertA_lookup {β : Type} (l : List (Str × β)) (acc : List (Str × β))
    (q : Str) :
    lookupA (l.foldl (fun m p => insertA m p.1 p.2) acc) q =
      match lastVal l q with
      | some w => some w
      | none => lookupA acc q := by
  induction l generalizing acc with
  | nil => rfl
  | cons p rest ih =>
    obtain ⟨k, v⟩ := p
    simp only [List.foldl_cons, lastVal]
    rw [ih]
    cases hr : lastVal rest q with
    | some w => rfl
    | none =>
      simp only [insertA_lookup]
      by_cases hk : k = q <;> simp [hk]

theorem foldl_procRow (rows : List (List Str)) (md : List (Str × Str)) :
    rows.foldl procRow md =
      (rows.filterMap rowTok).foldl (fun m p => insertA m p.1 p.2) md := by
  induction rows generalizing md with
  | nil => rfl
  | cons r rest ih =>
    simp only [List.foldl_cons, List.filterMap_cons, procRow]
    cases h : rowTok r with
    | none => simp only [h, ih]
    | some p => obtain ⟨c, t⟩ := p; simp only [h, List.foldl_cons, ih]

theorem extractData_toks_acc (page : List HTable) (acc : List (Str × Str)) :
    page.foldl
        (fun md t => if tableKeyword t then (t.rows.drop 1).foldl procRow md else md)
        acc =
      (pageToks page).foldl (fun m p => insertA m p.1 p.2) acc := by
  induction page generalizing acc with
  | nil => rfl
  | cons t rest ih =>
    simp only [List.foldl_cons, pageToks]
    by_cases hk : tableKeyword t
    · rw [if_pos hk, if_pos hk, List.foldl_append, ih, foldl_procRow]
    · rw [if_neg hk, if_neg hk, List.nil_append, ih]

theorem extractData_toks (page : List HTable) :
    extractData page = (pageToks page).foldl (fun m p => insertA m p.1 p.2) [] :=
  extractData_toks_acc page []

theorem mem_keys_insertA {β : Type} {m : List (Str × β)} {k : Str} {v : β} {x : Str} :
    x ∈ keysOf (insertA m k v) ↔ x ∈ keysOf m ∨ x = k := by
  induction m with
  | nil => simp [insertA, keysOf]
  | cons hd rest ih =>
    obtain ⟨k0, v0⟩ := hd
    by_cases h0 : k0 = k
    · subst h0
      simp only [insertA, if_true]
      simp only [keysOf, List.map_cons, List.mem_cons]
      tauto
    · simp only [keysOf, List.map_cons, List.mem_cons] at ih ⊢
      simp only [insertA, if_neg h0, List.map_cons, List.mem_cons]
      rw [ih]
      tauto

theorem nodup_insertA {β : Type} (m : List (Str × β)) (k : Str) (v : β)
    (h : (keysOf m).Nodup) : (keysOf (insertA m k v)).Nodup := by
  induction m with
  | nil => simp [insertA, keysOf]
  | cons hd rest ih =>
    obtain ⟨k0, v0⟩ := hd
    simp only [keysOf, List.map_cons, List.nodup_cons] at h
    by_cases h0 : k0 = k
    · subst h0
      simp only [insertA, if_true]
      simp only [keysOf, List.map_cons, List.nodup_cons]
      exact h
    · simp only [insertA, if_neg h0, keysOf, List.map_cons, List.nodup_cons]
      refine ⟨fun hm => ?_, ih h.2⟩
      rcases mem_keys_insertA.mp hm with hx | hx
      · exact h.1 hx
      · exact h0 hx

theorem nodup_foldl_insertA {β : Type} (l : List (Str × β)) (acc : List (Str × β))
    (h : (keysOf acc).Nodup) :
    (keysOf (l.foldl (fun m p => insertA m p.1 p.2) acc)).Nodup := by
  induction l generalizing acc with
  | nil => exact h
  | cons p rest ih => exact ih _ (nodup_insertA _ _ _ h)

/-- Claim C1 (amended): on every page each subject code is recorded at most
once in the extraction mapping, but a later data row that yields a token for
an already-captured code OVERWRITES the earlier one: the mapping holds the
token of the LAST row that produced one for that code (dict write semantics),
not the first. -/
theorem c1_extraction_last_write_wins (page : List HTable) (k : Str) :
    (keysOf (extractData page)).Nodup ∧
      lookupA (extractData page) k = lastVal (pageToks page) k := by
  constructor
  · rw [extractData_toks]
    exact nodup_foldl_insertA _ _ (by simp [keysOf])
  · rw [extractData_toks, foldl_insertA_lookup]
    cases h : lastVal (pageToks page) k with
    | some w => rfl
    | none => rfl

def pg1 : List HTable :=
  [⟨[[s2l "SUBJECT", s2l "MARKS", s2l "TOTAL"],
     [s2l "CS-CS-101 MATH", s2l "MATH", s2l "85"],
     [s2l "CS-CS-101 MATH", s2l "MATH", s2l "90"]]⟩]

/-- Claim C1 counterexample: two data rows of one page match the same subject
code `CS-CS-101`; the first yields token `85`, the second `90`.  The claim
says the mapping records the FIRST token (`85`); the extraction actually
records `90` — the later row overwrites the earlier one. -/
theorem c1_counterexample :
    rowTok [s2l "CS-CS-101 MATH", s2l "MATH", s2l "85"] =
        some (s2l "CS-CS-101", s2l "85") ∧
      rowTok [s2l "CS-CS-101 MATH", s2l "MATH", s2l "90"] =
        some (s2l "CS-CS-101", s2l "90") ∧
      lookupA (extractData pg1) (s2l "CS-CS-101") = some (s2l "90") ∧
      some (s2l "90") ≠ some (s2l "85") := by
  refine ⟨by decide, by decide, by decide, by decide⟩

/-! ### Shape of every token the engine can store (claims C4 and C7) -/

theorem digit_toUpper (c : Char) (h : c.isDigit = true) : c.toUpper = c := by
  simp only [Char.isDigit, Bool.and_eq_true, decide_eq_true_eq] at h
  have h9 : c.toNat ≤ 57 := UInt32.toNat_le_of_le (by norm_num [UInt32.size]) h.2
  simp only [Char.toUpper]
  rw [if_neg]
  omega

theorem upperStr_of_digits (ds : Str) (h : ∀ x ∈ ds, x.isDigit = true) :
    upperStr ds = ds := by
  unfold upperStr
  calc ds.map Char.toUpper = ds.map id :=
        List.map_congr_left (fun x hx => digit_toUpper x (h x hx))
    _ = ds := List.map_id ds

theorem lastVal_mem {β : Type} {l : List (Str × β)} {k : Str} {v : β}
    (h : lastVal l k = some v) : (k, v) ∈ l := by
  induction l with
  | nil => simp [lastVal] at h
  | cons hd rest ih =>
    obtain ⟨k0, v0⟩ := hd
    simp only [lastVal] at h
    cases hr : lastVal rest k with
    | some w =>
      rw [hr] at h
      exact List.mem_cons_of_mem _ (ih (hr.trans h))
    | none =>
      rw [hr] at h
      by_cases hk : k0 = k
      · rw [if_pos hk] at h
        obtain rfl := hk
        obtain rfl : v0 = v := Option.some.inj h
        exact List.mem_cons_self _ _
      · rw [if_neg hk] at h
        exact absurd h (by simp)

theorem pageToks_mem {page : List HTable} {p : Str × Str} (h : p ∈ pageToks page) :
    ∃ cells, rowTok cells = some p := by
  induction page with
  | nil => simp [pageToks] at h
  | cons t rest ih =>
    simp only [pageToks, List.mem_append] at h
    rcases h with h | h
    · by_cases hk : tableKeyword t
      · rw [if_pos hk] at h
        obtain ⟨cells, _, hc⟩ := List.mem_filterMap.mp h
        exact ⟨cells, hc⟩
      · rw [if_neg hk] at h
        simp at h
    · exact ih h

theorem rowTok_markOf {cells : List Str} {k t : Str}
    (h : rowTok cells = some (k, t)) : markOf (rowText cells) = some t := by
  match cells with
  | [] => simp [rowTok] at h
  | c0 :: rest =>
    simp only [rowTok] at h
    by_cases hlen : 3 ≤ (c0 :: rest).length
    · rw [if_pos hlen] at h
      cases hs : findSubjectCode (pyStrip c0) with
      | none => rw [hs] at h; simp at h
      | some code =>
        rw [hs] at h
        cases hm : markOf (rowText (c0 :: rest)) with
        | none => rw [hm] at h; simp at h
        | some tok =>
          rw [hm] at h
          obtain ⟨_, rfl⟩ : code = k ∧ tok = t := by
            have := Option.some.inj h
            exact ⟨congrArg Prod.fst this, congrArg Prod.snd this⟩
          rfl
    · rw [if_neg hlen] at h
      simp at h

theorem numFMatchAt_shape {prev : Option Char} {s g : Str}
    (h : numFMatchAt prev s = some g) :
    ∃ ds c, g = ds ++ [c] ∧ ds ≠ [] ∧ ds.length ≤ 3 ∧
      (∀ x ∈ ds, x.isDigit = true) ∧ (c = 'F' ∨ c = 'f') := by
  unfold numFMatchAt at h
  split at h
  · dsimp only at h
    split at h
    · rename_i hl
      split at h
      · rename_i c after heq
        split at h
        · rename_i hf
          refine ⟨s.takeWhile Char.isDigit, c, (Option.some.inj h).symm, ?_, hl.2, ?_, hf.1⟩
          · rw [← List.length_pos]; omega
          · exact fun x hx => List.mem_takeWhile_imp hx
        · simp at h
      · simp at h
    · simp at h
  · simp at h

theorem findNumF_shape {prev : Option Char} {s g : Str}
    (h : findNumF prev s = some g) :
    ∃ ds c, g = ds ++ [c] ∧ ds ≠ [] ∧ ds.length ≤ 3 ∧
      (∀ x ∈ ds, x.isDigit = true) ∧ (c = 'F' ∨ c = 'f') := by
  induction s generalizing prev with
  | nil => simp [findNumF] at h
  | cons c0 rest ih =>
    simp only [findNumF] at h
    cases hm : numFMatchAt prev (c0 :: rest) with
    | some g0 =>
      rw [hm] at h
      obtain rfl : g0 = g := Option.some.inj h
      exact numFMatchAt_shape hm
    | none =>
      rw [hm] at h
      exact ih h

theorem numsMatchAt_shape {prev : Option Char} {s d : Str}
    (h : numsMatchAt prev s = some d) :
    2 ≤ d.length ∧ d.length ≤ 3 ∧ ∀ x ∈ d, x.isDigit = true := by
  unfold numsMatchAt at h
  split at h
  · dsimp only at h
    split at h
    · rename_i hl
      obtain rfl : s.takeWhile Char.isDigit = d := Option.some.inj h
      exact ⟨hl.1.1, hl.1.2, fun x hx => List.mem_takeWhile_imp hx⟩
    · simp at h
  · simp at h

theorem findNums_shape {prev : Option Char} {s d : Str}
    (h : d ∈ findNums prev s) :
    2 ≤ d.length ∧ d.length ≤ 3 ∧ ∀ x ∈ d, x.isDigit = true := by
  induction s generalizing prev with
  | nil => simp [findNums] at h
  | cons c0 rest ih =>
    simp only [findNums] at h
    cases hm : numsMatchAt prev (c0 :: rest) with
    | some g0 =>
      rw [hm] at h
      rcases List.mem_cons.mp h with rfl | h2
      · exact numsMatchAt_shape hm
      · exact ih h2
    | none =>
      rw [hm] at h
      exact ih h

/-- Every token the mark ladder can emit: a bare `F`, a 1–3-digit number
glued to `F`, or a pure 2–3-digit number whose value is within `[10, 100]`. -/
theorem markOf_shape {s t : Str} (h : markOf s = some t) :
    t = ['F'] ∨
      (∃ ds, t = ds ++ ['F'] ∧ ds ≠ [] ∧ ds.length ≤ 3 ∧ ∀ x ∈ ds, x.isDigit = true) ∨
      ((∀ x ∈ t, x.isDigit = true) ∧ 2 ≤ t.length ∧ t.length ≤ 3 ∧
        10 ≤ digitsToNat t ∧ digitsToNat t ≤ 100) := by
  unfold markOf at h
  cases hf : findNumF none s with
  | some g =>
    rw [hf] at h
    obtain rfl : upperStr g = t := Option.some.inj h
    obtain ⟨ds, c, rfl, hne, hlen, hdig, hc⟩ := findNumF_shape hf
    refine Or.inr (Or.inl ⟨ds, ?_, hne, hlen, hdig⟩)
    have hcF : c.toUpper = 'F' := by rcases hc with rfl | rfl <;> decide
    rw [upperStr, List.map_append, ← upperStr, upperStr_of_digits ds hdig]
    simp [upperStr, hcF]
  | none =>
    rw [hf] at h
    by_cases hw : hasWordF none s = true
    · rw [if_pos hw] at h
      exact Or.inl (Option.some.inj h).symm
    · rw [if_neg hw] at h
      cases hl : (validMarks s).getLast? with
      | some v =>
        rw [hl] at h
        obtain rfl : v = t := Option.some.inj h
        have hmem := List.mem_of_mem_getLast? hl
        rw [validMarks, List.mem_filter] at hmem
        obtain ⟨hmem, hrange⟩ := hmem
        have hr := of_decide_eq_true hrange
        obtain ⟨h2, h3, hdig⟩ := findNums_shape hmem
        exact Or.inr (Or.inr ⟨hdig, h2, h3, hr.1, hr.2⟩)
      | none =>
        rw [hl] at h
        by_cases hk : (hasKeyword (s2l "FAIL") none s || hasKeyword (s2l "AB") none s ||
            hasKeyword (s2l "ABSENT") none s) = true
        · rw [if_pos hk] at h
          exact Or.inl (Option.some.inj h).symm
        · rw [if_neg hk] at h
          simp at h

/-- Numeric component of a stored token (leading digits), as e.g. the
results view later reads it back (`''.join(c for c in raw if c.isdigit())`
on tokens shaped like `29F`). -/
def tokenNumPart (t : Str) : Option Nat :=
  if (t.takeWhile Char.isDigit).isEmpty then none
  else some (digitsToNat (t.takeWhile Char.isDigit))

/-- Claim C4 (amended): every token stored by the Extraction Engine is a bare
fail `F`, a composite numeric+fail token whose digits are merely 1–3 long
(value 0–999, NOT range-checked), or a pure 2–3 digit numeric token whose
value lies in [10,100].  The [10,100] rejection applies only to pure numeric
tokens, not to the numeric component of composite tokens. -/
theorem c4_stored_token_shape (page : List HTable) (k t : Str)
    (h : lookupA (extractData page) k = some t) :
    t = ['F'] ∨
      (∃ ds, t = ds ++ ['F'] ∧ ds ≠ [] ∧ ds.length ≤ 3 ∧ ∀ x ∈ ds, x.isDigit = true) ∨
      ((∀ x ∈ t, x.isDigit = true) ∧ 2 ≤ t.length ∧ t.length ≤ 3 ∧
        10 ≤ digitsToNat t ∧ digitsToNat t ≤ 100) := by
  rw [extractData_toks, foldl_insertA_lookup] at h
  cases hl : lastVal (pageToks page) k with
  | none => rw [hl] at h; simp [lookupA] at h
  | some v =>
    rw [hl] at h
    dsimp only at h
    obtain rfl : v = t := Option.some.inj h
    obtain ⟨cells, hc⟩ := pageToks_mem (lastVal_mem hl)
    exact markOf_shape (rowTok_markOf hc)

def pg4 : List HTable :=
  [⟨[[s2l "SUBJECT", s2l "MARKS", s2l "TOTAL"],
     [s2l "CS-CS-101 MATH", s2l "X", s2l "5F"]]⟩]

/-- Claim C4 counterexample: a data row whose text contains the composite
token `5F` stores `5F` for its subject; the numeric component 5 lies outside
[10,100], so values outside that range are NOT rejected for composite
NumericFail tokens. -/
theorem c4_counterexample :
    lookupA (extractData pg4) (s2l "CS-CS-101") = some (s2l "5F") ∧
      tokenNumPart (s2l "5F") = some 5 ∧ ¬(10 ≤ 5 ∧ 5 ≤ 100) :=
  ⟨by decide, by decide, by decide⟩

/-- Witness for `c4_stored_token_shape` at the concrete page `pg4`. -/
theorem c4_stored_token_shape_witness :
    lookupA (extractData pg4) (s2l "CS-CS-101") = some (s2l "5F") ∧
      (s2l "5F" = ['F'] ∨
        (∃ ds, s2l "5F" = ds ++ ['F'] ∧ ds ≠ [] ∧ ds.length ≤ 3 ∧
          ∀ x ∈ ds, x.isDigit = true) ∨
        ((∀ x ∈ s2l "5F", x.isDigit = true) ∧ 2 ≤ (s2l "5F").length ∧
          (s2l "5F").length ≤ 3 ∧ 10 ≤ digitsToNat (s2l "5F") ∧
          digitsToNat (s2l "5F") ≤ 100)) :=
  ⟨by decide, c4_stored_token_shape pg4 (s2l "CS-CS-101") (s2l "5F") (by decide)⟩

/-! ### Claim C7: a row text containing a word-bounded digits+F token always
yields the composite token (precedence over bare `F` and numbers) -/

/-- The context left of a decomposition point is a word boundary: either the
preceding text ends in a non-word char, or it is empty and the scanner's
previous-char context is a boundary. -/
def ctxOk (prev : Option Char) (a : Str) : Prop :=
  match a.getLast? with
  | some x => isWordChar x = false
  | none => prevBoundary prev = true

theorem takeWhile_app_all (p : Char → Bool) (ds : Str) (c : Char) (b : Str)
    (h1 : ∀ x ∈ ds, p x = true) (h2 : p c = false) :
    (ds ++ c :: b).takeWhile p = ds ∧ (ds ++ c :: b).dropWhile p = c :: b := by
  induction ds with
  | nil => simp [List.takeWhile_cons, List.dropWhile_cons, h2]
  | cons d ds' ih =>
    have hd := h1 d (List.mem_cons_self d ds')
    have ih' := ih (fun x hx => h1 x (List.mem_cons_of_mem d hx))
    simp [List.takeWhile_cons, List.dropWhile_cons, hd, ih'.1, ih'.2]

theorem numFMatchAt_of_parts (prev : Option Char) (ds : Str) (c : Char) (b : Str)
    (hne : ds ≠ []) (hlen : ds.length ≤ 3) (hdig : ∀ x ∈ ds, x.isDigit = true)
    (hc : c = 'F' ∨ c = 'f') (hprev : prevBoundary prev = true)
    (hb : nextBoundary b = true) :
    numFMatchAt prev (ds ++ c :: b) = some (ds ++ [c]) := by
  have hcd : c.isDigit = false := by rcases hc with rfl | rfl <;> decide
  obtain ⟨htw, hdw⟩ := takeWhile_app_all Char.isDigit ds c b hdig hcd
  unfold numFMatchAt
  rw [if_pos hprev]
  dsimp only
  rw [htw, hdw]
  rw [if_pos ⟨List.length_pos.mpr hne, hlen⟩]
  dsimp only
  rw [if_pos ⟨hc, hb⟩]

theorem findNumF_isSome_of_spans (a : Str) :
    ∀ (prev : Option Char) (ds : Str) (c : Char) (b : Str),
      ds ≠ [] → ds.length ≤ 3 → (∀ x ∈ ds, x.isDigit = true) → (c = 'F' ∨ c = 'f') →
      ctxOk prev a → nextBoundary b = true →
      (findNumF prev (a ++ ds ++ c :: b)).isSome = true := by
  induction a with
  | nil =>
    intro prev ds c b hne hlen hdig hc hctx hb
    have hprev : prevBoundary prev = true := hctx
    have hmatch := numFMatchAt_of_parts prev ds c b hne hlen hdig hc hprev hb
    cases ds with
    | nil => exact absurd rfl hne
    | cons d ds' =>
      simp only [List.nil_append, List.cons_append, List.append_eq, findNumF]
      rw [List.cons_append] at hmatch
      rw [hmatch]
      rfl
  | cons x a' ih =>
    intro prev ds c b hne hlen hdig hc hctx hb
    simp only [List.cons_append, findNumF]
    cases hm : numFMatchAt prev (x :: (a' ++ ds ++ c :: b)) with
    | some g => simp
    | none =>
      apply ih (some x) ds c b hne hlen hdig hc ?_ hb
      cases a' with
      | nil =>
        have hx : isWordChar x = false := hctx
        simp [ctxOk, prevBoundary, hx]
      | cons y a'' =>
        simpa [ctxOk, List.getLast?_cons_cons] using hctx

/-- Claim C7: whenever the concatenated cell text of a data row (≥ 3 cells,
first cell matching a subject pattern) contains a word-bounded token of 1–3
digits immediately followed by `F` or `f`, the engine records for that row's
subject a composite numeric+fail token — a nonempty digit string glued to
`F` — never the plain fail token `F` and never a pure numeric token, no
matter what other fail markers or numbers the row contains. -/
theorem c7_composite_precedence (cells : List Str) (c0 : Str) (rest : List Str)
    (code : Str) (a ds : Str) (c : Char) (b : Str)
    (hc : cells = c0 :: rest) (hlen : 3 ≤ cells.length)
    (hcode : findSubjectCode (pyStrip c0) = some code)
    (hsplit : rowText cells = a ++ ds ++ c :: b)
    (hne : ds ≠ []) (hlen3 : ds.length ≤ 3) (hdig : ∀ x ∈ ds, x.isDigit = true)
    (hcF : c = 'F' ∨ c = 'f') (hctx : ctxOk none a) (hb : nextBoundary b = true) :
    ∃ es, es ≠ [] ∧ es.length ≤ 3 ∧ (∀ x ∈ es, x.isDigit = true) ∧
      rowTok cells = some (code, es ++ ['F']) ∧
      es ++ ['F'] ≠ ['F'] ∧ ¬(∀ x ∈ es ++ ['F'], x.isDigit = true) := by
  have hsome : (findNumF none (rowText cells)).isSome = true := by
    rw [hsplit]
    exact findNumF_isSome_of_spans a none ds c b hne hlen3 hdig hcF hctx hb
  obtain ⟨g, hg⟩ := Option.isSome_iff_exists.mp hsome
  obtain ⟨es, c', rfl, hene, helen, hedig, hec⟩ := findNumF_shape hg
  have hupper : upperStr (es ++ [c']) = es ++ ['F'] := by
    have hcF' : c'.toUpper = 'F' := by rcases hec with rfl | rfl <;> decide
    have h1 : List.map Char.toUpper es = es := upperStr_of_digits es hedig
    show List.map Char.toUpper (es ++ [c']) = es ++ ['F']
    rw [List.map_append, h1, List.map_cons, List.map_nil, hcF']
  have hm : markOf (rowText cells) = some (es ++ ['F']) := by
    unfold markOf
    rw [hg]
    dsimp only
    rw [hupper]
  refine ⟨es, hene, helen, hedig, ?_, ?_, ?_⟩
  · subst hc
    simp only [rowTok]
    rw [if_pos hlen, hcode, hm]
  · intro hEq
    have := congrArg List.length hEq
    simp only [List.length_append, List.length_cons, List.length_nil] at this
    exact hene (List.length_eq_zero.mp (by omega))
  · intro hall
    exact absurd (hall 'F' (by simp)) (by decide)

def cells7 : List Str := [s2l "CS-CS-101 MATH", s2l "F", s2l "29F"]

/-- Witness for `c7_composite_precedence`: a row containing a bare `F` cell
AND the token `29F`; the engine records `29F`, not `F`. -/
theorem c7_composite_precedence_witness :
    rowText cells7 = s2l "CS-CS-101 MATH F " ++ s2l "29" ++ 'F' :: [] ∧
      ∃ es, es ≠ [] ∧ es.length ≤ 3 ∧ (∀ x ∈ es, x.isDigit = true) ∧
        rowTok cells7 = some (s2l "CS-CS-101", es ++ ['F']) ∧
        es ++ ['F'] ≠ ['F'] ∧ ¬(∀ x ∈ es ++ ['F'], x.isDigit = true) := by
  constructor
  · decide
  · exact c7_composite_precedence cells7 (s2l "CS-CS-101 MATH") [s2l "F", s2l "29F"]
      (s2l "CS-CS-101") (s2l "CS-CS-101 MATH F ") (s2l "29") 'F' []
      rfl (by decide) (by decide) (by decide) (by decide) (by decide)
      (by decide) (Or.inl rfl) (by decide : isWordChar ' ' = false) rfl

/-- Claim C8: for a data row (≥ 3 cells, subject code matched) whose text has
no composite digits+F token and no standalone `F`, the engine records the
LAST 2–3 digit number in [10,100] found in the row text. -/
theorem c8_last_valid_number (cells : List Str) (c0 : Str) (rest : List Str)
    (code v : Str)
    (hc : cells = c0 :: rest) (hlen : 3 ≤ cells.length)
    (hcode : findSubjectCode (pyStrip c0) = some code)
    (hnf : findNumF none (rowText cells) = none)
    (hwf : hasWordF none (rowText cells) = false)
    (hmany : 2 ≤ (validMarks (rowText cells)).length)
    (hlast : (validMarks (rowText cells)).getLast? = some v) :
    rowTok cells = some (code, v) := by
  have hm : markOf (rowText cells) = some v := by
    unfold markOf
    rw [hnf]
    dsimp only
    rw [hwf]
    simp only [Bool.false_eq_true, if_false]
    rw [hlast]
  subst hc
  simp only [rowTok]
  rw [if_pos hlen, hcode, hm]

def cells8 : List Str := [s2l "CS-CS-101 X", s2l "Max:100", s2l "Obtained:76"]

/-- Witness for `c8_last_valid_number`: the row text `Max:100 Obtained:76`
yields the last in-range number 76 (100 and 76 are both in range; 101 is
not), matching the spec's example. -/
theorem c8_last_valid_number_witness :
    findNumF none (rowText cells8) = none ∧ hasWordF none (rowText cells8) = false ∧
      validMarks (rowText cells8) = [s2l "100", s2l "76"] ∧
      rowTok cells8 = some (s2l "CS-CS-101", s2l "76") := by
  refine ⟨by decide, by decide, by decide, ?_⟩
  exact c8_last_valid_number cells8 (s2l "CS-CS-101 X")
    [s2l "Max:100", s2l "Obtained:76"] (s2l "CS-CS-101") (s2l "76") rfl
    (by decide) (by decide) (by decide) (by decide) (by decide) (by decide)

/-! ### Batch orchestration (`dashboard_app.worker_process`)

`JobState` mirrors the global `STATE` dict.  The worker's lock-protected
sections are modelled as atomic state transitions; `workerTrace` lists the
states observable between lock sections (the states readable while
`STATE_LOCK` is released).  Per-student processing happens outside the lock
and is abstracted by the list of result records it returns (the code's
`try`/`except` around `process_single_student` guarantees one record per
student).  The snapshot filename choice involves the clock and filesystem
and is abstracted by a function from the student index. -/

structure ResultRec where
  name : Str
  roll : Str
  reg : Str
  status : Str
  marks : List (Str × Str)
deriving DecidableEq

structure StudentRec where
  name : Str
  roll : Str
  reg : Str
deriving DecidableEq

structure JobState where
  students : List StudentRec
  results : List ResultRec
  currentIndex : Nat
  running : Bool
  successful : Nat
  failed : Nat
  filename : Option Str
deriving DecidableEq

/-- First lock section of `worker_process`: reset the run (note: `students`
and `filename` are NOT reset here). -/
def resetState (st : JobState) : JobState :=
  { st with running := true, currentIndex := 0, results := [],
            successful := 0, failed := 0 }

/-- Lock section `STATE['students'] = students`. -/
def setRoster (st : JobState) (roster : List StudentRec) : JobState :=
  { st with students := roster }

/-- Lock section appending one result and bumping the matching counter
(lines 198–203: one atomic section). -/
def appendResult (st : JobState) (r : ResultRec) : JobState :=
  { st with results := st.results ++ [r],
            successful := if r.status = s2l "Success" then st.successful + 1
                          else st.successful,
            failed := if r.status = s2l "Success" then st.failed
                      else st.failed + 1 }

/-- The per-student loop: set `current_index`, process (off-lock), append the
record, and on every 5th and the final student set the snapshot filename.
Returns the observable intermediate states and the final state. -/
def runLoop (st : JobState) (i total : Nat) (ps : List (StudentRec × ResultRec))
    (fname : Nat → Str) : List JobState × JobState :=
  match ps with
  | [] => ([], st)
  | (_, r) :: rest =>
    let stA := { st with currentIndex := i }
    let stB := appendResult stA r
    let stC := if i % 5 = 0 ∨ i = total then { stB with filename := some (fname i) }
               else stB
    let out := runLoop stC (i + 1) total rest fname
    (stA :: stB :: stC :: out.1, out.2)

/-- All observable states of one `worker_process` run, in order, from the
initial reset to the final `running := false` section. -/
def workerTrace (init : JobState) (roster : List StudentRec)
    (outcomes : List ResultRec) (fname : Nat → Str) : List JobState :=
  let st0 := resetState init
  let st1 := setRoster st0 roster
  let lp := runLoop st1 1 roster.length (roster.zip outcomes) fname
  st0 :: st1 :: lp.1 ++ [{ lp.2 with running := false }]

/-- The counters invariant of claim C2. -/
def countersInv (st : JobState) : Prop :=
  st.successful + st.failed = st.results.length ∧
    st.results.length ≤ st.currentIndex ∧ st.currentIndex ≤ st.students.length

theorem appendResult_students (st : JobState) (r : ResultRec) :
    (appendResult st r).students = st.students := rfl

theorem appendResult_counts (st : JobState) (r : ResultRec) :
    (appendResult st r).successful + (appendResult st r).failed =
      st.successful + st.failed + 1 := by
  simp only [appendResult]
  by_cases h : r.status = s2l "Success" <;> simp [h] <;> omega

theorem runLoop_inv (ps : List (StudentRec × ResultRec)) :
    ∀ (st : JobState) (i : Nat) (fname : Nat → Str),
      st.successful + st.failed = st.results.length →
      st.results.length + 1 = i → st.currentIndex + 1 = i →
      i + ps.length ≤ st.students.length + 1 →
      (∀ x ∈ (runLoop st i st.students.length ps fname).1, countersInv x) ∧
        countersInv (runLoop st i st.students.length ps fname).2 ∧
        (runLoop st i st.students.length ps fname).2.students = st.students ∧
        (runLoop st i st.students.length ps fname).2.running = st.running := by
  induction ps with
  | nil =>
    intro st i fname h1 h2 h3 h4
    simp only [runLoop, List.length_nil] at h4 ⊢
    exact ⟨by simp, ⟨h1, by omega, by omega⟩, by trivial, by trivial⟩
  | cons p rest ih =>
    intro st i fname h1 h2 h3 h4
    obtain ⟨stu, r⟩ := p
    simp only [runLoop, List.length_cons] at h4 ⊢
    set stA := { st with currentIndex := i } with hA
    set stB := appendResult stA r with hB
    set stC := if i % 5 = 0 ∨ i = st.students.length
               then { stB with filename := some (fname i) } else stB with hC
    have hBcounts : stB.successful + stB.failed = st.successful + st.failed + 1 := by
      rw [hB, hA]; exact appendResult_counts _ r
    have hBresults : stB.results.length = st.results.length + 1 := by
      simp [hB, hA, appendResult]
    have hBstudents : stB.students = st.students := by simp [hB, hA, appendResult]
    have hBindex : stB.currentIndex = i := by simp [hB, hA, appendResult]
    have hCfields : stC.successful + stC.failed = stB.successful + stB.failed ∧
        stC.results = stB.results ∧ stC.students = stB.students ∧
        stC.currentIndex = stB.currentIndex ∧ stC.running = stB.running := by
      rw [hC]; split <;> simp
    have hCstudents : stC.students = st.students := by rw [hCfields.2.2.1, hBstudents]
    have ihc := ih stC (i + 1) fname
      (by rw [hCfields.1, hCfields.2.1, hBcounts, hBresults, h1])
      (by rw [hCfields.2.1, hBresults]; omega)
      (by rw [hCfields.2.2.2.1, hBindex])
      (by rw [hCstudents]; omega)
    rw [hCstudents] at ihc
    have hInvA : countersInv stA := by
      refine ⟨h1, by simp [hA]; omega, by simp [hA]; omega⟩
    have hInvB : countersInv stB := by
      refine ⟨by rw [hBcounts, hBresults, h1], ?_, ?_⟩
      · rw [hBresults, hBindex]; omega
      · rw [hBindex, hBstudents]; omega
    have hInvC : countersInv stC := by
      refine ⟨?_, ?_, ?_⟩
      · rw [hCfields.1, hCfields.2.1]; exact hInvB.1
      · rw [hCfields.2.1, hCfields.2.2.2.1]; exact hInvB.2.1
      · rw [hCfields.2.2.2.1, hCfields.2.2.1]; exact hInvB.2.2
    refine ⟨?_, ihc.2.1, by rw [ihc.2.2.1], by
      rw [ihc.2.2.2]
      have : stC.running = st.running := by
        rw [hCfields.2.2.2.2]; simp [hB, hA, appendResult]
      exact this⟩
    intro x hx
    rcases List.mem_cons.mp hx with rfl | hx
    · exact hInvA
    rcases List.mem_cons.mp hx with rfl | hx
    · exact hInvB
    rcases List.mem_cons.mp hx with rfl | hx
    · exact hInvC
    · exact ihc.1 x hx

/-- Claim C2: at every observable point of a batch run — every state readable
while the JobState lock is released — the counters satisfy
`successful + failed = len(results) ≤ current_index ≤ total`, with `total`
the roster length held in the state. -/
theorem c2_counters_invariant (init : JobState) (roster : List StudentRec)
    (outcomes : List ResultRec) (fname : Nat → Str) (st : JobState)
    (h : st ∈ workerTrace init roster outcomes fname) : countersInv st := by
  simp only [workerTrace] at h
  have hst1 : (setRoster (resetState init) roster).students = roster := rfl
  have hl := runLoop_inv (roster.zip outcomes) (setRoster (resetState init) roster)
    1 fname rfl rfl rfl
    (by
      rw [hst1, List.length_zip]
      have := Nat.min_le_left roster.length outcomes.length
      omega)
  rw [hst1] at hl
  rcases List.mem_cons.mp h with rfl | h
  · exact ⟨rfl, by simp [resetState], by simp [resetState]⟩
  rcases List.mem_cons.mp h with rfl | h
  · exact ⟨rfl, by simp [setRoster, resetState], by simp [setRoster, resetState]⟩
  rcases List.mem_append.mp h with h | h
  · exact hl.1 st h
  · rw [List.mem_singleton.mp h]
    exact hl.2.1

def idle0 : JobState := ⟨[], [], 0, false, 0, 0, none⟩

def alice : StudentRec := ⟨s2l "Alice", s2l "101", s2l "5001"⟩

def aliceRec : ResultRec := ⟨s2l "Alice", s2l "101", s2l "5001", s2l "Success", []⟩

/-- Witness for `c2_counters_invariant` on a one-student run. -/
theorem c2_counters_invariant_witness :
    resetState idle0 ∈ workerTrace idle0 [alice] [aliceRec] (fun _ => s2l "o.xlsx") ∧
      countersInv (resetState idle0) :=
  ⟨by decide,
    c2_counters_invariant idle0 [alice] [aliceRec] (fun _ => s2l "o.xlsx")
      (resetState idle0) (by decide)⟩

/-! ### Claim C3: the running flag across batch-fatal errors

`worker_process` has NO try/except around `pd.read_excel(upload_path)` or
`create_driver_headless()`: an exception there propagates out of the thread
with `STATE['running']` still `True`.  `workerFinal` returns the JobState at
the moment the orchestrator task ends (normally, or where the uncaught
exception aborts it).  Per-student exceptions are caught inside the loop and
become Failed records, so they are part of `outcomes`. -/

def workerFinal (init : JobState) (load : Except Str (List StudentRec))
    (driverOk : Bool) (outcomes : List ResultRec) (fname : Nat → Str) : JobState :=
  let st0 := resetState init
  match load with
  | .error _ => st0
  | .ok roster =>
    let st1 := setRoster st0 roster
    if driverOk then
      let lp := runLoop st1 1 roster.length (roster.zip outcomes) fname
      { lp.2 with running := false }
    else st1

/-- Claim C3 counterexample: when the roster file fails to load, the
exception is NOT caught by the orchestrator and the task ends with the
running flag still set — contradicting the claim that the flag is cleared
before the orchestrator task ends. -/
theorem c3_counterexample :
    (workerFinal idle0 (Except.error (s2l "read_excel failed")) true []
        (fun _ => s2l "o.xlsx")).running = true := by decide

/-- Claim C3 (amended): the running flag is cleared only on the normal
completion path.  A batch-fatal error while loading the roster or acquiring
the browser session propagates uncaught out of `worker_process` and the flag
remains set, so the system stays marked as running. -/
theorem c3_running_flag (init : JobState) (roster : List StudentRec)
    (outcomes : List ResultRec) (fname : Nat → Str) (msg : Str) (dok : Bool) :
    (workerFinal init (Except.ok roster) true outcomes fname).running = false ∧
      (workerFinal init (Except.error msg) dok outcomes fname).running = true ∧
      (workerFinal init (Except.ok roster) false outcomes fname).running = true :=
  ⟨rfl, rfl, rfl⟩

/-! ### Roster loading (claim C6)

`worker_process` (and `run_cli`) build the student list from the spreadsheet:
a row is skipped when any of Roll Number / Registration Number / Student Name
is NA (`pd.isna`); otherwise `str(int(cell))` is computed for roll and
registration — and Python's `int(...)` RAISES on a non-numeric string.
Spreadsheet cells are modelled as NA, a numeric value, or text. -/

inductive CellVal
  | na
  | num (n : Int)
  | txt (s : Str)
deriving DecidableEq

def isNa : CellVal → Bool
  | .na => true
  | _ => false

def intStr (n : Int) : Str := s2l (toString n)

/-- Python `int(...)` applied to a string: optional sign then digits, with
surrounding whitespace tolerated; anything else raises (`none`). -/
def pyIntOfTxt (s : Str) : Option Int :=
  match pyStrip s with
  | [] => none
  | '-' :: ds =>
    if ds ≠ [] ∧ ds.all Char.isDigit then some (-(digitsToNat ds : Int)) else none
  | '+' :: ds =>
    if ds ≠ [] ∧ ds.all Char.isDigit then some ((digitsToNat ds : Int)) else none
  | ds => if ds.all Char.isDigit then some ((digitsToNat ds : Int)) else none

/-- `str(int(cell))`: succeeds on numeric cells and on parseable text. -/
def cellIntStr : CellVal → Option Str
  | .na => none
  | .num n => some (intStr n)
  | .txt s => (pyIntOfTxt s).map intStr

/-- `str(cell).strip()` for the name column. -/
def cellNameStr : CellVal → Str
  | .na => s2l "nan"
  | .num n => intStr n
  | .txt s => pyStrip s

structure RosterRow where
  name : CellVal
  roll : CellVal
  reg : CellVal
deriving DecidableEq

/-- `pd.isna(roll) or pd.isna(reg) or pd.isna(name)`. -/
def anyNa (r : RosterRow) : Bool := isNa r.roll || isNa r.reg || isNa r.name

def mkStudent (r : RosterRow) : Option StudentRec :=
  match cellIntStr r.roll, cellIntStr r.reg with
  | some ro, some rg => some ⟨cellNameStr r.name, ro, rg⟩
  | _, _ => none

/-- The roster-building loop: NA rows are skipped; a kept row whose roll or
registration does not parse raises a `ValueError` that aborts the load. -/
def buildStudents : List RosterRow → Except Str (List StudentRec)
  | [] => .ok []
  | r :: rest =>
    if anyNa r then buildStudents rest
    else
      match mkStudent r with
      | some s => (buildStudents rest).map (fun l => s :: l)
      | none => .error (s2l "ValueError")

def goodRow : RosterRow := ⟨.txt (s2l "Alice"), .num 101, .num 5001⟩

def badRow : RosterRow := ⟨.txt (s2l "Bob"), .txt (s2l "12A"), .num 5002⟩

def naRow : RosterRow := ⟨.txt (s2l "Carol"), .na, .num 5003⟩

/-- Claim C6 counterexample: a row whose roll cell is present but unparseable
(`"12A"`) is not silently dropped — loading the roster fails with an error,
so loading can fail because of such a row. -/
theorem c6_counterexample :
    anyNa badRow = false ∧ mkStudent badRow = none ∧
      buildStudents [goodRow, badRow] = Except.error (s2l "ValueError") :=
  ⟨by decide, rfl, rfl⟩

/-- Claim C6 (amended): rows with any identity cell empty (NA) are silently
dropped, and when every remaining row parses, loading yields exactly those
rows' StudentRecords in order; but a non-NA row whose roll or registration
cell is unparseable makes the whole load raise — such rows are not dropped. -/
theorem c6_roster_loading (rows : List RosterRow) :
    ((∀ r ∈ rows, anyNa r = true ∨ (mkStudent r).isSome) →
      buildStudents rows =
        .ok ((rows.filter (fun r => !anyNa r)).filterMap mkStudent)) ∧
      ((∃ r ∈ rows, anyNa r = false ∧ mkStudent r = none) →
        buildStudents rows = .error (s2l "ValueError")) := by
  induction rows with
  | nil =>
    refine ⟨fun _ => rfl, ?_⟩
    rintro ⟨r, hr, -⟩
    simp at hr
  | cons r rest ih =>
    constructor
    · intro hall
      have hr := hall r (List.mem_cons_self r rest)
      simp only [buildStudents, List.filter_cons]
      by_cases hna : anyNa r = true
      · rw [if_pos hna, hna]
        simp only [Bool.not_true, Bool.false_eq_true, if_false]
        exact ih.1 (fun x hx => hall x (List.mem_cons_of_mem r hx))
      · rw [if_neg hna]
        rcases hr with h | h
        · exact absurd h hna
        · obtain ⟨s, hs⟩ := Option.isSome_iff_exists.mp h
          rw [hs, ih.1 (fun x hx => hall x (List.mem_cons_of_mem r hx))]
          have hb : (!anyNa r) = true := by
            cases hcb : anyNa r
            · rfl
            · exact absurd hcb hna
          rw [hb]
          simp only [if_true, List.filterMap_cons, hs]
          rfl
    · rintro ⟨x, hx, hxna, hxnone⟩
      rcases List.mem_cons.mp hx with rfl | hx
      · simp only [buildStudents]
        rw [if_neg (by simp [hxna]), hxnone]
      · have herr := ih.2 ⟨x, hx, hxna, hxnone⟩
        simp only [buildStudents]
        by_cases hna : anyNa r = true
        · rw [if_pos hna]; exact herr
        · rw [if_neg hna]
          cases hm : mkStudent r with
          | none => rfl
          | some s => rw [herr]; rfl

/-- Witness for `c6_roster_loading` on a roster with one NA row and one good
row: the NA row is dropped, loading succeeds with Alice's record. -/
theorem c6_roster_loading_witness :
    (∀ r ∈ [goodRow, naRow], anyNa r = true ∨ (mkStudent r).isSome) ∧
      buildStudents [goodRow, naRow] =
        .ok [⟨s2l "Alice", s2l "101", s2l "5001"⟩] :=
  ⟨by decide, ((c6_roster_loading [goodRow, naRow]).1 (by decide)).trans (by rfl)⟩

/-! ### Artifact expiry ledger and cleaner (`dashboard_app`, claims C5, C9)

The ledger has two namespaces (uploads, results), each a filename→expiry
map; `set_upload_expiry` / `set_result_expiry` insert under the lock and then
call `save_expiries` (persisting the whole in-memory ledger to disk);
`load_expiries` keeps only entries whose timestamp is still in the future.
`cleaner_loop` deletes the file (a missing file is no error), pops the entry,
and — for results — clears `STATE['filename']` when it referenced the removed
artifact; it never calls `save_expiries`.  The file systems are modelled as
the lists of filenames present in the uploads and outputs folders. -/

structure Expiries where
  uploads : List (Str × Nat)
  results : List (Str × Nat)
deriving DecidableEq

/-- `save_expiries`: the on-disk ledger becomes the in-memory one. -/
def saveExpiries (mem : Expiries) : Expiries := mem

/-- `set_result_expiry` on (memory, disk): insert, then persist. -/
def setResultExpiry (name : Str) (now ttl : Nat) (st : Expiries × Expiries) :
    Expiries × Expiries :=
  let mem := { st.1 with results := insertA st.1.results name (now + ttl) }
  (mem, saveExpiries mem)

/-- `set_upload_expiry` on (memory, disk): insert, then persist. -/
def setUploadExpiry (name : Str) (now ttl : Nat) (st : Expiries × Expiries) :
    Expiries × Expiries :=
  let mem := { st.1 with uploads := insertA st.1.uploads name (now + ttl) }
  (mem, saveExpiries mem)

/-- `load_expiries`: drop entries whose timestamp has already elapsed. -/
def loadExpiries (disk : Expiries) (now : Nat) : Expiries :=
  ⟨disk.uploads.filter (fun p => decide (now < p.2)),
   disk.results.filter (fun p => decide (now < p.2))⟩

structure CleanerState where
  fsUploads : List Str
  fsOutputs : List Str
  exp : Expiries
  jobFilename : Option Str
deriving DecidableEq

/-- The uploads pass of one cleaner iteration. -/
def sweepUp (now : Nat) : List (Str × Nat) → List Str → List (Str × Nat) × List Str
  | [], fs => ([], fs)
  | (f, e) :: rest, fs =>
    if e ≤ now then sweepUp now rest (fs.filter (fun g => g ≠ f))
    else
      let out := sweepUp now rest fs
      ((f, e) :: out.1, out.2)

/-- The results pass of one cleaner iteration: also clears the JobState
filename pointer when it references the removed artifact. -/
def sweepRes (now : Nat) : List (Str × Nat) → List Str → Option Str →
    List (Str × Nat) × List Str × Option Str
  | [], fs, ptr => ([], fs, ptr)
  | (f, e) :: rest, fs, ptr =>
    if e ≤ now then
      sweepRes now rest (fs.filter (fun g => g ≠ f))
        (if ptr = some f then none else ptr)
    else
      let out := sweepRes now rest fs ptr
      ((f, e) :: out.1, out.2)

/-- One `cleaner_loop` iteration at time `now`. -/
def sweepOnce (now : Nat) (st : CleanerState) : CleanerState :=
  let u := sweepUp now st.exp.uploads st.fsUploads
  let r := sweepRes now st.exp.results st.fsOutputs st.jobFilename
  ⟨u.2, r.2.1, ⟨u.1, r.1⟩, r.2.2⟩

def applySweeps (ts : List Nat) (st : CleanerState) : CleanerState :=
  ts.foldl (fun s t => sweepOnce t s) st

theorem sweepRes_led (now : Nat) (led : List (Str × Nat)) :
    ∀ (fs : List Str) (ptr : Option Str),
      (sweepRes now led fs ptr).1 = led.filter (fun p => decide (now < p.2)) := by
  induction led with
  | nil => intro fs ptr; rfl
  | cons p rest ih =>
    intro fs ptr
    obtain ⟨f, e⟩ := p
    simp only [sweepRes, List.filter_cons]
    by_cases he : e ≤ now
    · rw [if_pos he, ih]
      have hd : decide (now < e) = false := decide_eq_false (by omega)
      rw [hd]
      simp
    · rw [if_neg he]
      have hd : decide (now < e) = true := decide_eq_true (by omega)
      rw [hd]
      simp only [ih, if_true]

def c5reg : Expiries × Expiries :=
  setResultExpiry (s2l "r.xlsx") 0 1200 (⟨[], []⟩, ⟨[], []⟩)

def c5mem : Expiries := (sweepOnce 1300 ⟨[], [s2l "r.xlsx"], c5reg.1, none⟩).exp

/-- Claim C5 counterexample: after a sweep removes the expired entry from the
in-memory ledger, the on-disk ledger (written at registration, never by the
sweep) still holds the entry — the on-disk ledger does not reflect the
in-memory ledger after a removal mutation. -/
theorem c5_counterexample :
    c5mem.results = [] ∧ c5reg.2.results = [(s2l "r.xlsx", 1200)] ∧
      c5mem ≠ c5reg.2 :=
  ⟨rfl, rfl, by decide⟩

/-- Claim C5 (amended): registration mutations persist the ledger — after
`set_result_expiry`/`set_upload_expiry` the on-disk ledger equals the
in-memory one — but a sweep removal does not write the disk: it only filters
memory, dropping exactly the entries with expiry ≤ sweep time.  A restart
still cannot resurrect a swept entry: loading at any time ≥ the sweep time
drops every such entry from whatever the disk holds. -/
theorem c5_mutation_persistence (name : Str) (now ttl : Nat)
    (st : Expiries × Expiries) (disk : Expiries) (t t' : Nat) (f : Str) (e : Nat) :
    (setResultExpiry name now ttl st).2 = (setResultExpiry name now ttl st).1 ∧
      (setUploadExpiry name now ttl st).2 = (setUploadExpiry name now ttl st).1 ∧
      (∀ cst : CleanerState,
        (sweepOnce t cst).exp.results =
          cst.exp.results.filter (fun p => decide (t < p.2))) ∧
      (e ≤ t → t ≤ t' →
        (f, e) ∉ (loadExpiries disk t').results ∧
          (f, e) ∉ (loadExpiries disk t').uploads) := by
  refine ⟨rfl, rfl, fun cst => sweepRes_led t cst.exp.results _ _, fun h1 h2 => ⟨?_, ?_⟩⟩
  · intro hmem
    rw [loadExpiries] at hmem
    have := (List.mem_filter.mp hmem).2
    simp only [decide_eq_true_eq] at this
    omega
  · intro hmem
    rw [loadExpiries] at hmem
    have := (List.mem_filter.mp hmem).2
    simp only [decide_eq_true_eq] at this
    omega

/-- Witness for `c5_mutation_persistence` at concrete values. -/
theorem c5_mutation_persistence_witness :
    ((20 : Nat) ≤ 30 ∧ (30 : Nat) ≤ 40) ∧
      ((setResultExpiry (s2l "r.xlsx") 0 1200 (⟨[], []⟩, ⟨[], []⟩)).2 =
        (setResultExpiry (s2l "r.xlsx") 0 1200 (⟨[], []⟩, ⟨[], []⟩)).1) ∧
      (s2l "r.xlsx", 20) ∉ (loadExpiries ⟨[], [(s2l "r.xlsx", 20)]⟩ 40).results :=
  ⟨⟨by decide, by decide⟩,
    (c5_mutation_persistence (s2l "r.xlsx") 0 1200 (⟨[], []⟩, ⟨[], []⟩)
      ⟨[], [(s2l "r.xlsx", 20)]⟩ 30 40 (s2l "r.xlsx") 20).1,
    ((c5_mutation_persistence (s2l "r.xlsx") 0 1200 (⟨[], []⟩, ⟨[], []⟩)
      ⟨[], [(s2l "r.xlsx", 20)]⟩ 30 40 (s2l "r.xlsx") 20).2.2.2 (by decide)
      (by decide)).1⟩

/-! ### Claim C9: eviction of an expired artifact -/

theorem keys_nodup_unique {β : Type} {l : List (Str × β)}
    (h : (keysOf l).Nodup) {f : Str} {a b : β}
    (ha : (f, a) ∈ l) (hb : (f, b) ∈ l) : a = b := by
  induction l with
  | nil => simp at ha
  | cons hd rest ih =>
    obtain ⟨g, v⟩ := hd
    simp only [keysOf, List.map_cons, List.nodup_cons] at h
    rcases List.mem_cons.mp ha with hea | hea
    · rcases List.mem_cons.mp hb with heb | heb
      · have h1 := (Prod.mk.injEq _ _ _ _).mp hea
        have h2 := (Prod.mk.injEq _ _ _ _).mp heb
        exact h1.2.trans h2.2.symm
      · exfalso
        obtain ⟨rfl, -⟩ := (Prod.mk.injEq _ _ _ _).mp hea
        exact h.1 (List.mem_map.mpr ⟨(f, b), heb, rfl⟩)
    · rcases List.mem_cons.mp hb with heb | heb
      · exfalso
        obtain ⟨rfl, -⟩ := (Prod.mk.injEq _ _ _ _).mp heb
        exact h.1 (List.mem_map.mpr ⟨(f, a), hea, rfl⟩)
      · exact ih h.2 hea heb

theorem sweepRes_fs_sub (now : Nat) (led : List (Str × Nat)) :
    ∀ (fs : List Str) (ptr : Option Str) (g : Str),
      g ∈ (sweepRes now led fs ptr).2.1 → g ∈ fs := by
  induction led with
  | nil => intro fs ptr g hg; exact hg
  | cons p rest ih =>
    intro fs ptr g hg
    obtain ⟨f, e⟩ := p
    simp only [sweepRes] at hg
    by_cases he : e ≤ now
    · rw [if_pos he] at hg
      exact (List.mem_filter.mp (ih _ _ _ hg)).1
    · rw [if_neg he] at hg
      exact ih _ _ _ hg

theorem sweepRes_fs_removed (now : Nat) (led : List (Str × Nat)) :
    ∀ (fs : List Str) (ptr : Option Str) (f : Str) (e : Nat),
      (f, e) ∈ led → e ≤ now → f ∉ (sweepRes now led fs ptr).2.1 := by
  induction led with
  | nil => intro fs ptr f e hmem; simp at hmem
  | cons p rest ih =>
    intro fs ptr f e hmem he hf
    obtain ⟨g, e'⟩ := p
    simp only [sweepRes] at hf
    rcases List.mem_cons.mp hmem with heq | hmem'
    · obtain ⟨rfl, rfl⟩ := (Prod.mk.injEq _ _ _ _).mp heq
      rw [if_pos he] at hf
      have := List.mem_filter.mp (sweepRes_fs_sub now rest _ _ _ hf)
      simp at this
    · by_cases he' : e' ≤ now
      · rw [if_pos he'] at hf
        exact ih _ _ _ _ hmem' he hf
      · rw [if_neg he'] at hf
        exact ih _ _ _ _ hmem' he hf

theorem sweepRes_ptr_cases (now : Nat) (led : List (Str × Nat)) :
    ∀ (fs : List Str) (ptr : Option Str),
      (sweepRes now led fs ptr).2.2 = ptr ∨ (sweepRes now led fs ptr).2.2 = none := by
  induction led with
  | nil => intro fs ptr; exact Or.inl rfl
  | cons p rest ih =>
    intro fs ptr
    obtain ⟨f, e⟩ := p
    simp only [sweepRes]
    by_cases he : e ≤ now
    · rw [if_pos he]
      by_cases hp : ptr = some f
      · rw [if_pos hp]
        rcases ih (fs.filter (fun g => g ≠ f)) none with h | h
        · exact Or.inr h
        · exact Or.inr h
      · rw [if_neg hp]
        exact ih _ _
    · rw [if_neg he]
      exact ih _ _

theorem sweepRes_ptr_keeps (now : Nat) (led : List (Str × Nat))
    (fs : List Str) (ptr : Option Str) (f : Str) (h : ptr ≠ some f) :
    (sweepRes now led fs ptr).2.2 ≠ some f := by
  rcases sweepRes_ptr_cases now led fs ptr with hc | hc
  · rw [hc]; exact h
  · rw [hc]; simp

theorem sweepRes_ptr_cleared (now : Nat) (led : List (Str × Nat)) :
    ∀ (fs : List Str) (ptr : Option Str) (f : Str) (e : Nat),
      (f, e) ∈ led → e ≤ now → (keysOf led).Nodup →
      (sweepRes now led fs ptr).2.2 ≠ some f := by
  induction led with
  | nil => intro fs ptr f e hmem; simp at hmem
  | cons p rest ih =>
    intro fs ptr f e hmem he hnd
    obtain ⟨g, e'⟩ := p
    simp only [keysOf, List.map_cons, List.nodup_cons] at hnd
    simp only [sweepRes]
    rcases List.mem_cons.mp hmem with heq | hmem'
    · obtain ⟨rfl, rfl⟩ := (Prod.mk.injEq _ _ _ _).mp heq
      rw [if_pos he]
      apply sweepRes_ptr_keeps
      by_cases hp : ptr = some f
      · rw [if_pos hp]; simp
      · rw [if_neg hp]; exact hp
    · have hgf : g ≠ f := by
        intro hgf
        subst hgf
        exact hnd.1 (List.mem_map.mpr ⟨(g, e), hmem', rfl⟩)
      by_cases he' : e' ≤ now
      · rw [if_pos he']
        exact ih _ _ _ _ hmem' he hnd.2
      · rw [if_neg he']
        exact ih _ _ _ _ hmem' he hnd.2

/-- The artifact is fully evicted: ledger entry gone, file gone, JobState
filename pointer not referencing it. -/
def goneC9 (f : Str) (st : CleanerState) : Prop :=
  f ∉ keysOf st.exp.results ∧ f ∉ st.fsOutputs ∧ st.jobFilename ≠ some f

theorem sweepOnce_gone_established (t : Nat) (cst : CleanerState) (f : Str) (e : Nat)
    (hmem : (f, e) ∈ cst.exp.results) (he : e ≤ t)
    (hnd : (keysOf cst.exp.results).Nodup) : goneC9 f (sweepOnce t cst) := by
  refine ⟨?_, ?_, ?_⟩
  · intro hf
    simp only [sweepOnce, keysOf] at hf
    rw [sweepRes_led] at hf
    obtain ⟨⟨f', e'⟩, hmem', hfst⟩ := List.mem_map.mp hf
    obtain ⟨hmem'', hdec⟩ := List.mem_filter.mp hmem'
    simp only at hfst
    subst hfst
    have := keys_nodup_unique hnd hmem hmem''
    simp only [decide_eq_true_eq] at hdec
    omega
  · exact sweepRes_fs_removed t cst.exp.results _ _ _ _ hmem he
  · exact sweepRes_ptr_cleared t cst.exp.results _ _ _ _ hmem he hnd

theorem sweepOnce_gone_preserved (t : Nat) (cst : CleanerState) (f : Str)
    (h : goneC9 f cst) : goneC9 f (sweepOnce t cst) := by
  refine ⟨?_, ?_, ?_⟩
  · intro hf
    simp only [sweepOnce, keysOf] at hf
    rw [sweepRes_led] at hf
    obtain ⟨⟨f', e'⟩, hmem', hfst⟩ := List.mem_map.mp hf
    obtain ⟨hmem'', -⟩ := List.mem_filter.mp hmem'
    subst hfst
    exact h.1 (List.mem_map.mpr ⟨(f', e'), hmem'', rfl⟩)
  · intro hf
    exact h.2.1 (sweepRes_fs_sub t cst.exp.results _ _ _ hf)
  · exact sweepRes_ptr_keeps t cst.exp.results _ _ _ h.2.2

theorem sweepOnce_live_preserved (t : Nat) (cst : CleanerState) (f : Str) (e : Nat)
    (hmem : (f, e) ∈ cst.exp.results) (ht : t < e)
    (hnd : (keysOf cst.exp.results).Nodup) :
    (f, e) ∈ (sweepOnce t cst).exp.results ∧
      (keysOf (sweepOnce t cst).exp.results).Nodup := by
  constructor
  · simp only [sweepOnce]
    rw [sweepRes_led]
    exact List.mem_filter.mpr ⟨hmem, by simp; omega⟩
  · simp only [sweepOnce, keysOf]
    rw [sweepRes_led]
    exact ((List.filter_sublist _).map Prod.fst).nodup hnd

theorem applySweeps_gone_preserved (ts : List Nat) :
    ∀ (st : CleanerState) (f : Str), goneC9 f st → goneC9 f (applySweeps ts st) := by
  induction ts with
  | nil => intro st f h; exact h
  | cons t ts' ih =>
    intro st f h
    exact ih _ _ (sweepOnce_gone_preserved t st f h)

theorem applySweeps_gone (ts : List Nat) :
    ∀ (st : CleanerState) (f : Str) (e : Nat),
      ((f, e) ∈ st.exp.results ∧ (keysOf st.exp.results).Nodup) ∨ goneC9 f st →
      (∃ t ∈ ts, e ≤ t) → goneC9 f (applySweeps ts st) := by
  induction ts with
  | nil =>
    rintro st f e hP ⟨t, ht, -⟩
    simp at ht
  | cons t ts' ih =>
    rintro st f e hP ⟨t0, ht0, he0⟩
    simp only [applySweeps, List.foldl_cons]
    by_cases hte : e ≤ t
    · have hgone : goneC9 f (sweepOnce t st) := by
        rcases hP with ⟨hmem, hnd⟩ | hg
        · exact sweepOnce_gone_established t st f e hmem hte hnd
        · exact sweepOnce_gone_preserved t st f hg
      exact applySweeps_gone_preserved ts' _ _ hgone
    · rcases List.mem_cons.mp ht0 with rfl | ht0'
      · exact absurd he0 hte
      · apply ih (sweepOnce t st) f e ?_ ⟨t0, ht0', he0⟩
        rcases hP with ⟨hmem, hnd⟩ | hg
        · exact Or.inl (sweepOnce_live_preserved t st f e hmem (by omega) hnd)
        · exact Or.inr (sweepOnce_gone_preserved t st f hg)

/-- The cleaner runs every `interval` seconds starting at `s0`; these are the
sweep instants up to a check time `c`. -/
def sweepTimes (s0 interval c : Nat) : List Nat :=
  ((List.range (c + 1)).map (fun k => s0 + k * interval)).filter
    (fun t => decide (t ≤ c))

theorem sweepTimes_covering (s0 interval e c : Nat) (hI : 0 < interval)
    (hs : s0 ≤ e) (hc : e + interval ≤ c) :
    ∃ t ∈ sweepTimes s0 interval c, e ≤ t := by
  obtain ⟨q, r, hqr, hrlt⟩ :
      ∃ q r, interval * q + r = e - s0 + interval - 1 ∧ r < interval :=
    ⟨(e - s0 + interval - 1) / interval, (e - s0 + interval - 1) % interval,
      Nat.div_add_mod _ _, Nat.mod_lt _ hI⟩
  have hqI : q * interval = interval * q := Nat.mul_comm q interval
  have hqle : q ≤ interval * q := Nat.le_mul_of_pos_left q hI
  refine ⟨s0 + q * interval, ?_, by rw [hqI]; omega⟩
  apply List.mem_filter.mpr
  refine ⟨List.mem_map.mpr ⟨q, List.mem_range.mpr (by omega), rfl⟩, ?_⟩
  simp only [decide_eq_true_eq]
  rw [hqI]
  omega

/-- Claim C9: any sweep at or after an artifact's expiry removes its ledger
entry, deletes the file (total: a missing file is not an error), and clears
the JobState filename pointer if it referenced the artifact; consequently,
with sweeps every `interval` seconds from `s0`, the artifact, its entry and
any pointer to it are gone at any check time ≥ expiry + one sweep interval. -/
theorem c9_artifact_eviction (st : CleanerState) (f : Str) (e s0 interval c : Nat)
    (hnd : (keysOf st.exp.results).Nodup) (hmem : (f, e) ∈ st.exp.results)
    (hI : 0 < interval) (hs : s0 ≤ e) (hc : e + interval ≤ c) :
    (∀ (t : Nat) (cst : CleanerState), e ≤ t → (f, e) ∈ cst.exp.results →
        (keysOf cst.exp.results).Nodup → goneC9 f (sweepOnce t cst)) ∧
      goneC9 f (applySweeps (sweepTimes s0 interval c) st) := by
  refine ⟨fun t cst ht hm hn => sweepOnce_gone_established t cst f e hm ht hn, ?_⟩
  exact applySweeps_gone (sweepTimes s0 interval c) st f e (Or.inl ⟨hmem, hnd⟩)
    (sweepTimes_covering s0 interval e c hI hs hc)

def st9 : CleanerState :=
  ⟨[], [s2l "r.xlsx"], ⟨[], [(s2l "r.xlsx", 20)]⟩, some (s2l "r.xlsx")⟩

/-- Witness for `c9_artifact_eviction`: an artifact expiring at 20, sweeps at
0 and 60 (interval 60), check at 80 — the file, its ledger entry and the
pointer are all gone. -/
theorem c9_artifact_eviction_witness :
    ((s2l "r.xlsx", 20) ∈ st9.exp.results ∧ (0 : Nat) < 60 ∧ (0 : Nat) ≤ 20 ∧
        20 + 60 ≤ 80) ∧
      goneC9 (s2l "r.xlsx") (applySweeps (sweepTimes 0 60 80) st9) :=
  ⟨⟨by decide, by decide, by decide, by decide⟩,
    (c9_artifact_eviction st9 (s2l "r.xlsx") 20 0 60 80 (by decide) (by decide)
      (by decide) (by decide) (by decide)).2⟩

/-! ### Claim C10: the status endpoint's failure list -/

/-- `failed_list = [r for r in STATE['results'] if r['status'] != 'Success']`
(the `/status` route). -/
def failedList (results : List ResultRec) : List ResultRec :=
  results.filter (fun r => !(r.status = s2l "Success" : Bool))

/-- `failed_submit`: the manual-correction handler replaces the record's
marks and sets its status to `'Success (manual)'`. -/
def applyManual (r : ResultRec) (marks : List (Str × Str)) : ResultRec :=
  { r with marks := marks, status := s2l "Success (manual)" }

/-- Claim C10: the failure list contains exactly the records whose status
differs from the literal `'Success'`; in particular a record repaired by
manual correction — status `'Success (manual)'` — still appears in it. -/
theorem c10_failed_list_exact :
    (∀ (results : List ResultRec) (r : ResultRec),
        r ∈ failedList results ↔ r ∈ results ∧ r.status ≠ s2l "Success") ∧
      ∀ (r : ResultRec) (marks : List (Str × Str)),
        applyManual r marks ∈ failedList [applyManual r marks] := by
  constructor
  · intro results r
    rw [failedList, List.mem_filter]
    constructor
    · rintro ⟨hm, hs⟩
      refine ⟨hm, ?_⟩
      intro heq
      rw [heq] at hs
      simp at hs
    · rintro ⟨hm, hs⟩
      refine ⟨hm, ?_⟩
      simp only [Bool.not_eq_true']
      exact decide_eq_false hs
  · intro r marks
    rw [failedList, List.mem_filter]
    refine ⟨List.mem_cons_self _ _, ?_⟩
    simp only [applyManual, Bool.not_eq_true']
    apply decide_eq_false
    intro h
    have := congrArg List.length h
    simp [s2l] at this

/-- Witness for `c1_extraction_last_write_wins` at the concrete page `pg1`. -/
theorem c1_extraction_last_write_wins_witness :
    (keysOf (extractData pg1)).Nodup ∧
      lookupA (extractData pg1) (s2l "CS-CS-101") =
        lastVal (pageToks pg1) (s2l "CS-CS-101") :=
  c1_extraction_last_write_wins pg1 (s2l "CS-CS-101")

/-- Witness for `c3_running_flag` at concrete inputs. -/
theorem c3_running_flag_witness :
    (workerFinal idle0 (Except.ok [alice]) true [aliceRec]
        (fun _ => s2l "o.xlsx")).running = false ∧
      (workerFinal idle0 (Except.error (s2l "boom")) true [aliceRec]
        (fun _ => s2l "o.xlsx")).running = true ∧
      (workerFinal idle0 (Except.ok [alice]) false [aliceRec]
        (fun _ => s2l "o.xlsx")).running = true :=
  c3_running_flag idle0 [alice] [aliceRec] (fun _ => s2l "o.xlsx") (s2l "boom") true

/-- Witness for `c10_failed_list_exact` at a concrete manually-repaired
record. -/
theorem c10_failed_list_exact_witness :
    applyManual aliceRec [(s2l "CS-CS-101", s2l "40")] ∈
      failedList [applyManual aliceRec [(s2l "CS-CS-101", s2l "40")]] :=
  c10_failed_list_exact.2 aliceRec [(s2l "CS-CS-101", s2l "40")]
